import Mathlib

/-!
Verification of the BAC time-series simulator of `std-drink-calculator`
(src/components/DrinkGraph.tsx).  The simulator core is the `points`
computation: a fixed-step (5 simulated minutes) forward simulation that
turns a list of drink events plus an elimination profile into a sequence
of (time, bac, label) samples, followed by a separate summary pass
(`soberTimeInfo`) that reports the peak BAC and the 0.05-threshold
crossing.

Numbers: the TypeScript source computes with IEEE doubles; we embed the
arithmetic over `ℚ` (exact rationals) and timestamps over `ℤ` (epoch
milliseconds), which is faithful for every claim considered here (none
depends on rounding).  The local-time display label produced by
`toLocaleTimeString` is modelled as a pure function of the timestamp
(`timeLabel`), since the formatting itself is out of scope.
-/

/-- A logged drink event, as consumed by `DrinkGraph` (only the
`timestamp` and `standardDrinks` fields of the repository's `Drink`
record are read by the simulator). -/
structure Drink where
  timestamp : ℤ
  standardDrinks : ℚ
  deriving DecidableEq, Repr

instance : Inhabited Drink := ⟨⟨0, 0⟩⟩

/-- Gender from types.ts, selecting the Widmark distribution constant. -/
inductive Gender
  | male
  | female
  deriving DecidableEq, Repr

/-- The elimination profile: the props `firstHourBurn`,
`subsequentHourBurn`, `weight`, `gender` of `DrinkGraph`. -/
structure Profile where
  firstHourBurn : ℚ
  subsequentHourBurn : ℚ
  weight : ℚ
  gender : Gender
  deriving DecidableEq, Repr

/-- One emitted sample: `{ time, bac, label }` in the source.  The label
is modelled by the timestamp it formats. -/
structure DataPoint where
  time : ℤ
  bac : ℚ
  label : ℤ
  deriving DecidableEq, Repr

instance : Inhabited DataPoint := ⟨⟨0, 0, 0⟩⟩

/-- Model of `new Date(t).toLocaleTimeString(...)`: a pure formatting of
the timestamp, represented by the timestamp itself. -/
def timeLabel (t : ℤ) : ℤ := t

/-- Widmark factor `r`: `gender === 'male' ? 0.68 : 0.55`. -/
def rFactor (g : Gender) : ℚ :=
  match g with
  | .male => 68/100
  | .female => 55/100

/-- Source function toBAC: `netSD / (w * r)` with the defensive clamp
`w = weight > 0 ? weight : 1`. -/
def toBAC (p : Profile) (netSD : ℚ) : ℚ :=
  let w := if p.weight > 0 then p.weight else 1
  netSD / (w * rFactor p.gender)

/-- Source constant `stepMs = 5 * 60 * 1000`: the 5-minute step, in milliseconds. -/
def stepMs : ℤ := 5 * 60 * 1000

/-- The comparator of `[...drinks].sort((a, b) => a.timestamp - b.timestamp)`:
ascending by timestamp. -/
def byTime (a b : Drink) : Prop := a.timestamp ≤ b.timestamp

instance : DecidableRel byTime := fun a b => inferInstanceAs (Decidable (a.timestamp ≤ b.timestamp))

instance : IsTotal Drink byTime := ⟨fun a b => Int.le_total a.timestamp b.timestamp⟩

instance : IsTrans Drink byTime := ⟨fun _ _ _ h1 h2 => Int.le_trans h1 h2⟩

/-- Source expression `[...drinks].sort((a, b) => a.timestamp - b.timestamp)`: a copy of the
input sorted ascending by timestamp.  (Any sorted-by-timestamp permutation
of the input; every downstream use — head/last timestamp and filtered
sums — is invariant under which such permutation is produced.) -/
def sortDrinks (drinks : List Drink) : List Drink :=
  drinks.insertionSort byTime

/-- Sum of the `standardDrinks` fields of a list of drinks (the
`forEach`/accumulate pattern of the source). -/
def sdSum (l : List Drink) : ℚ := (l.map Drink.standardDrinks).sum

/-- Source expression `sortedDrinks.filter(d => Math.abs(d.timestamp - startTime) < 1000)`:
the drinks folded into the very first sample. -/
def epsDrinks (l : List Drink) (t0 : ℤ) : List Drink :=
  l.filter (fun d => |d.timestamp - t0| < 1000)

/-- Source expression `sortedDrinks.filter(d => d.timestamp > a && d.timestamp <= b)`: the
drinks picked up by one simulation step. -/
def intervalDrinks (l : List Drink) (a b : ℤ) : List Drink :=
  l.filter (fun d => a < d.timestamp ∧ d.timestamp ≤ b)

/-- The mutable loop state: `currentNetSD`, `currentTime`, `timeSinceStart`. -/
structure SimState where
  netSD : ℚ
  time : ℤ
  sinceStart : ℤ
  deriving DecidableEq, Repr

/-- The per-step metabolized amount:
`(timeSinceStart < 60*60*1000) ? stepBurnFirstHour : stepBurnSubsequent`
with `stepBurnFirstHour = (firstHourBurn / 60) * 5` and likewise for the
subsequent rate. -/
def stepBurn (p : Profile) (sinceStart : ℤ) : ℚ :=
  if sinceStart < 60 * 60 * 1000 then p.firstHourBurn / 60 * 5
  else p.subsequentHourBurn / 60 * 5

/-- One iteration of the while-loop body, acting on the loop state: add
the drinks of the interval `(currentTime, currentTime + stepMs]`, then,
when the accumulator is positive, subtract the step's burn amount and
clamp at zero, then advance the clock. -/
def stepState (sorted : List Drink) (p : Profile) (st : SimState) : SimState :=
  let nextTime := st.time + stepMs
  let added := sdSum (intervalDrinks sorted st.time nextTime)
  let n1 := st.netSD + added
  let n2 := if n1 > 0 then
              (if n1 - stepBurn p st.sinceStart < 0 then 0
               else n1 - stepBurn p st.sinceStart)
            else n1
  ⟨n2, nextTime, st.sinceStart + stepMs⟩

/-- The `while (steps < maxSteps)` loop: each iteration runs the step,
pushes the sample for the new clock value, and stops right after the push
when the pre-advance clock is past the last drink's timestamp and the
just-computed BAC is at most 0.001.  The fuel argument is the remaining
number of allowed iterations. -/
def runLoop (sorted : List Drink) (p : Profile) (lastDrinkTime : ℤ) :
    Nat → SimState → List DataPoint
  | 0, _ => []
  | fuel + 1, st =>
    let st2 := stepState sorted p st
    let pt : DataPoint := ⟨st2.time, toBAC p st2.netSD, timeLabel st2.time⟩
    if st.time > lastDrinkTime ∧ pt.bac ≤ 1/1000 then [pt]
    else pt :: runLoop sorted p lastDrinkTime fuel st2

/-- Source constant `maxSteps = (24 * 60) / 5`: the 288-iteration safety ceiling. -/
def maxSteps : Nat := 24 * 60 / 5

/-- Source expression `startTime = sortedDrinks[0].timestamp`. -/
def startTimeOf (drinks : List Drink) : ℤ :=
  ((sortDrinks drinks).headD default).timestamp

/-- Source expression `lastDrinkTime = sortedDrinks[sortedDrinks.length - 1].timestamp`. -/
def lastDrinkTimeOf (drinks : List Drink) : ℤ :=
  ((sortDrinks drinks).getLastD default).timestamp

/-- The accumulator value of the very first sample: the summed
`standardDrinks` of the drinks within 1000 ms of `startTime`. -/
def initNetSD (drinks : List Drink) : ℚ :=
  sdSum (epsDrinks (sortDrinks drinks) (startTimeOf drinks))

/-- The loop state right before the first iteration. -/
def initState (drinks : List Drink) : SimState :=
  ⟨initNetSD drinks, startTimeOf drinks, 0⟩

/-- The simulator core `points`: empty input yields the empty sequence;
otherwise the initial sample at `startTime` followed by the while-loop's
samples. -/
def points (drinks : List Drink) (p : Profile) : List DataPoint :=
  if drinks.isEmpty then []
  else
    ⟨startTimeOf drinks, toBAC p (initNetSD drinks), timeLabel (startTimeOf drinks)⟩ ::
      runLoop (sortDrinks drinks) p (lastDrinkTimeOf drinks) maxSteps (initState drinks)

/-- The unbroken loop-state trajectory: the state after `k` iterations of
the loop body (`stepState`), starting from `initState`.  While the loop
runs, its state after `k` iterations is exactly `stateAt drinks p k`. -/
def stateAt (drinks : List Drink) (p : Profile) : Nat → SimState
  | 0 => initState drinks
  | k + 1 => stepState (sortDrinks drinks) p (stateAt drinks p k)

/-- Accessor for `points[i].bac`, with a default out of range. -/
def bacAt (pts : List DataPoint) (i : Nat) : ℚ := (pts.getD i default).bac

/-- Accessor for `points[i].time`, with a default out of range. -/
def timeAt (pts : List DataPoint) (i : Nat) : ℤ := (pts.getD i default).time

/-- Accessor for `points[i].label`, with a default out of range. -/
def labelAt (pts : List DataPoint) (i : Nat) : ℤ := (pts.getD i default).label

/-- The summary record produced by `soberTimeInfo`: either
`{ status: 'under', peak }` or `{ status: 'over', peak, time, label }`
with the optional `projected` flag modelled as a `Bool` (absent = `false`). -/
inductive SoberInfo
  | under (peak : ℚ)
  | over (peak : ℚ) (time : ℤ) (label : ℤ) (projected : Bool)
  deriving DecidableEq, Repr

/-- The peak-finding for-loop
`for(i=1; i<points.length; i++) if(points[i].bac > points[peakIndex].bac) peakIndex = i`,
written with explicit fuel (first argument) so it reduces structurally;
the fuel is instantiated to `pts.length`, enough for the whole loop. -/
def peakFrom (pts : List DataPoint) : Nat → Nat → Nat → Nat
  | 0, _, best => best
  | fuel + 1, i, best =>
    if i < pts.length then
      peakFrom pts fuel (i + 1) (if bacAt pts i > bacAt pts best then i else best)
    else best

/-- Source value `peakIndex`: the for-loop above started at `i = 1`, `peakIndex = 0`. -/
def peakIndexOf (pts : List DataPoint) : Nat := peakFrom pts pts.length 1 0

/-- The crossing scan
`for (i = peakIndex; i < points.length; i++) if (points[i].bac <= 0.05) return ...`:
index of the first sample at or after `i` with BAC at most 0.05, written
with explicit fuel (instantiated to `pts.length`). -/
def crossFrom (pts : List DataPoint) : Nat → Nat → Option Nat
  | 0, _ => none
  | fuel + 1, i =>
    if i < pts.length then
      (if bacAt pts i ≤ 5/100 then some i else crossFrom pts fuel (i + 1))
    else none

/-- The summary pass `soberTimeInfo`: peak detection, then the
0.05-threshold classification and crossing scan. -/
def soberTimeInfo (pts : List DataPoint) : Option SoberInfo :=
  if pts.isEmpty then none
  else if bacAt pts (peakIndexOf pts) < 5/100 then
    some (.under (bacAt pts (peakIndexOf pts)))
  else
    match crossFrom pts pts.length (peakIndexOf pts) with
    | some c => some (.over (bacAt pts (peakIndexOf pts)) (timeAt pts c) (labelAt pts c) false)
    | none => some (.over (bacAt pts (peakIndexOf pts)) (timeAt pts (pts.length - 1))
                      (labelAt pts (pts.length - 1)) true)

/-- Source expression `const std = (volumeMl / 1000) * abv * 0.789`: the standard-drink
conversion applied when a drink is logged (App.tsx `addDrink`). -/
def calcStandardDrinks (volumeMl abv : ℚ) : ℚ :=
  volumeMl / 1000 * abv * (789/1000)

/-! ### Structural lemmas about the simulation loop -/

/-- The sample pushed after one loop iteration, as a function of the
post-step state. -/
def sampleOf (p : Profile) (st : SimState) : DataPoint :=
  ⟨st.time, toBAC p st.netSD, timeLabel st.time⟩

theorem runLoop_succ (s : List Drink) (p : Profile) (lastT : ℤ) (fuel : Nat)
    (st : SimState) :
    runLoop s p lastT (fuel + 1) st =
      if st.time > lastT ∧ (sampleOf p (stepState s p st)).bac ≤ 1/1000 then
        [sampleOf p (stepState s p st)]
      else sampleOf p (stepState s p st) :: runLoop s p lastT fuel (stepState s p st) :=
  rfl

theorem runLoop_length_le (s : List Drink) (p : Profile) (lastT : ℤ) :
    ∀ fuel st, (runLoop s p lastT fuel st).length ≤ fuel := by
  intro fuel
  induction fuel with
  | zero => intro st; simp [runLoop]
  | succ n ih =>
    intro st
    rw [runLoop_succ]
    split
    · simp
    · simpa using Nat.succ_le_succ (ih _)

theorem runLoop_ne_nil (s : List Drink) (p : Profile) (lastT : ℤ) (fuel : Nat)
    (st : SimState) : runLoop s p lastT (fuel + 1) st ≠ [] := by
  rw [runLoop_succ]
  split <;> simp

theorem runLoop_getD (s : List Drink) (p : Profile) (lastT : ℤ) :
    ∀ fuel st i, i < (runLoop s p lastT fuel st).length →
      (runLoop s p lastT fuel st).getD i default = sampleOf p ((stepState s p)^[i + 1] st) := by
  intro fuel
  induction fuel with
  | zero => intro st i h; simp [runLoop] at h
  | succ n ih =>
    intro st i h
    rw [runLoop_succ] at h ⊢
    by_cases hc : st.time > lastT ∧ (sampleOf p (stepState s p st)).bac ≤ 1/1000
    · rw [if_pos hc] at h ⊢
      have hi : i = 0 := Nat.lt_one_iff.mp (by simpa using h)
      subst hi
      simp
    · rw [if_neg hc] at h ⊢
      cases i with
      | zero => simp
      | succ j =>
        have h2 : j < (runLoop s p lastT n (stepState s p st)).length := by
          simpa using Nat.lt_of_succ_lt_succ (by simpa using h)
        have := ih (stepState s p st) j h2
        simpa [Function.iterate_succ_apply] using this

theorem stateAt_eq_iterate (drinks : List Drink) (p : Profile) (k : Nat) :
    stateAt drinks p k = (stepState (sortDrinks drinks) p)^[k] (initState drinks) := by
  induction k with
  | zero => rfl
  | succ n ih => rw [stateAt, ih, Function.iterate_succ_apply']

theorem stepState_time (s : List Drink) (p : Profile) (st : SimState) :
    (stepState s p st).time = st.time + stepMs := rfl

theorem stepState_sinceStart (s : List Drink) (p : Profile) (st : SimState) :
    (stepState s p st).sinceStart = st.sinceStart + stepMs := rfl

theorem stateAt_time (drinks : List Drink) (p : Profile) (k : Nat) :
    (stateAt drinks p k).time = startTimeOf drinks + k * stepMs := by
  induction k with
  | zero => simp [stateAt, initState]
  | succ n ih =>
    rw [stateAt, stepState_time, ih]
    push_cast
    ring

theorem stateAt_sinceStart (drinks : List Drink) (p : Profile) (k : Nat) :
    (stateAt drinks p k).sinceStart = k * stepMs := by
  induction k with
  | zero => simp [stateAt, initState]
  | succ n ih =>
    rw [stateAt, stepState_sinceStart, ih]
    push_cast
    ring

theorem points_of_ne_nil (drinks : List Drink) (p : Profile) (h : drinks ≠ []) :
    points drinks p =
      sampleOf p (initState drinks) ::
        runLoop (sortDrinks drinks) p (lastDrinkTimeOf drinks) maxSteps (initState drinks) := by
  rw [points, if_neg (by simpa [List.isEmpty_iff] using h)]
  rfl

theorem points_getD (drinks : List Drink) (p : Profile) (h : drinks ≠ []) (i : Nat)
    (hlt : i < (points drinks p).length) :
    (points drinks p).getD i default = sampleOf p (stateAt drinks p i) := by
  rw [points_of_ne_nil drinks p h] at hlt ⊢
  cases i with
  | zero => simp [stateAt]
  | succ j =>
    have h2 : j < (runLoop (sortDrinks drinks) p (lastDrinkTimeOf drinks) maxSteps
        (initState drinks)).length := by
      simpa using Nat.lt_of_succ_lt_succ (by simpa using hlt)
    have := runLoop_getD (sortDrinks drinks) p (lastDrinkTimeOf drinks) maxSteps
      (initState drinks) j h2
    simpa [stateAt_eq_iterate] using this

/-! ### The sorted copy: its head and last element carry the minimal and
maximal timestamps -/

theorem sortDrinks_perm (l : List Drink) : (sortDrinks l).Perm l :=
  List.perm_insertionSort byTime l

theorem sortDrinks_sorted (l : List Drink) : List.Sorted byTime (sortDrinks l) :=
  List.sorted_insertionSort byTime l

theorem mem_sortDrinks {d : Drink} {l : List Drink} : d ∈ sortDrinks l ↔ d ∈ l :=
  (sortDrinks_perm l).mem_iff

theorem sortDrinks_eq_nil_iff {l : List Drink} : sortDrinks l = [] ↔ l = [] := by
  constructor
  · intro h
    have hp := (sortDrinks_perm l).symm
    rw [h] at hp
    exact hp.eq_nil
  · intro h
    subst h
    rfl

theorem headD_timestamp_le (s : List Drink) (hs : List.Sorted byTime s) :
    ∀ d ∈ s, (s.headD default).timestamp ≤ d.timestamp := by
  cases s with
  | nil => intro d hd; cases hd
  | cons a tl =>
    intro d hd
    rcases List.mem_cons.mp hd with rfl | hmem
    · simp
    · simpa using (List.sorted_cons.mp hs).1 d hmem

theorem getLastD_timestamp_ge (s : List Drink) (hs : List.Sorted byTime s) :
    ∀ x, ∀ d ∈ s, d.timestamp ≤ (s.getLastD x).timestamp := by
  induction s with
  | nil => intro x d hd; cases hd
  | cons a tl ih =>
    intro x d hd
    rw [List.getLastD_cons]
    have hs2 := List.sorted_cons.mp hs
    rcases List.mem_cons.mp hd with rfl | hmem
    · cases tl with
      | nil => simp [List.getLastD]
      | cons b tl2 =>
        have hab : byTime d b := hs2.1 b (by simp)
        calc d.timestamp ≤ b.timestamp := hab
          _ ≤ (List.getLastD (b :: tl2) d).timestamp := ih hs2.2 d b (by simp)
    · exact ih hs2.2 a d hmem

theorem getLastD_mem (s : List Drink) (hs : s ≠ []) (x : Drink) : s.getLastD x ∈ s := by
  induction s generalizing x with
  | nil => exact absurd rfl hs
  | cons a tl ih =>
    rw [List.getLastD_cons]
    cases tl with
    | nil => simp [List.getLastD]
    | cons b tl2 => exact List.mem_cons_of_mem a (ih (by simp) a)

theorem startTimeOf_le (drinks : List Drink) :
    ∀ d ∈ drinks, startTimeOf drinks ≤ d.timestamp := by
  intro d hd
  exact headD_timestamp_le (sortDrinks drinks) (sortDrinks_sorted drinks) d
    (mem_sortDrinks.mpr hd)

theorem startTimeOf_mem (drinks : List Drink) (h : drinks ≠ []) :
    ∃ d ∈ drinks, d.timestamp = startTimeOf drinks := by
  have hne : sortDrinks drinks ≠ [] := fun hc => h (sortDrinks_eq_nil_iff.mp hc)
  cases hs : sortDrinks drinks with
  | nil => exact absurd hs hne
  | cons a tl =>
    refine ⟨a, ?_, ?_⟩
    · exact mem_sortDrinks.mp (hs ▸ List.mem_cons_self a tl)
    · simp [startTimeOf, hs]

theorem le_lastDrinkTimeOf (drinks : List Drink) :
    ∀ d ∈ drinks, d.timestamp ≤ lastDrinkTimeOf drinks := by
  intro d hd
  exact getLastD_timestamp_ge (sortDrinks drinks) (sortDrinks_sorted drinks) default d
    (mem_sortDrinks.mpr hd)

theorem lastDrinkTimeOf_mem (drinks : List Drink) (h : drinks ≠ []) :
    ∃ d ∈ drinks, d.timestamp = lastDrinkTimeOf drinks := by
  have hne : sortDrinks drinks ≠ [] := fun hc => h (sortDrinks_eq_nil_iff.mp hc)
  exact ⟨(sortDrinks drinks).getLastD default,
    mem_sortDrinks.mp (getLastD_mem _ hne _), rfl⟩

/-! ### Claim theorems: termination bound, empty/non-empty behavior, and
the time axis -/

theorem maxSteps_eq : maxSteps = 288 := rfl

theorem stepMs_eq : stepMs = 300000 := rfl

/-- C6: for every input drink list and elimination profile, the emitted
sample sequence contains at most 289 samples (one initial sample plus at
most 288 loop steps): the loop's fuel is the fixed `maxSteps = 24h / 5min
= 288` ceiling, so `points` always halts by then when no earlier stop
condition fires. -/
theorem points_length_le_289 (drinks : List Drink) (p : Profile) :
    (points drinks p).length ≤ 289 := by
  by_cases h : drinks = []
  · subst h
    simp [points]
  · rw [points_of_ne_nil drinks p h]
    have := runLoop_length_le (sortDrinks drinks) p (lastDrinkTimeOf drinks) maxSteps
      (initState drinks)
    simpa [maxSteps_eq] using Nat.succ_le_succ (maxSteps_eq ▸ this)

/-- C9: the simulator returns the empty sequence exactly on empty input
(no exception: `points` is total, and the summary pass yields no summary
on the empty sequence), and every non-empty input yields at least two
samples: the initial sample plus at least one loop step. -/
theorem points_empty_iff_and_two (drinks : List Drink) (p : Profile) :
    (points drinks p = [] ↔ drinks = []) ∧
    soberTimeInfo (points [] p) = none ∧
    (drinks ≠ [] → 2 ≤ (points drinks p).length) := by
  refine ⟨⟨fun h => ?_, fun h => by subst h; rfl⟩, rfl, fun h => ?_⟩
  · by_contra hne
    rw [points_of_ne_nil drinks p hne] at h
    exact List.cons_ne_nil _ _ h
  · rw [points_of_ne_nil drinks p h]
    have h1 : runLoop (sortDrinks drinks) p (lastDrinkTimeOf drinks) maxSteps
        (initState drinks) ≠ [] := runLoop_ne_nil _ _ _ 287 _
    have h2 := List.length_pos.mpr h1
    simp only [List.length_cons]
    omega

/-- Witness for C9 at a concrete input. -/
theorem points_empty_iff_and_two_witness :
    ([⟨0, 1⟩] : List Drink) ≠ [] ∧
    ((points [⟨0, 1⟩] ⟨2, 1, 80, .male⟩ = [] ↔ ([⟨0, 1⟩] : List Drink) = []) ∧
     soberTimeInfo (points [] ⟨2, 1, 80, .male⟩) = none ∧
     (([⟨0, 1⟩] : List Drink) ≠ [] → 2 ≤ (points [⟨0, 1⟩] ⟨2, 1, 80, .male⟩).length)) :=
  ⟨by simp, points_empty_iff_and_two [⟨0, 1⟩] ⟨2, 1, 80, .male⟩⟩

/-- C7: the first sample's time is the earliest drink's timestamp `t0`
(`startTimeOf` is a lower bound of all timestamps and is attained), the
`i`-th sample's time is exactly `t0 + i * 300000` ms, and consecutive
samples' times strictly increase. -/
theorem points_time_axis (drinks : List Drink) (p : Profile) (h : drinks ≠ []) :
    timeAt (points drinks p) 0 = startTimeOf drinks ∧
    (∀ d ∈ drinks, startTimeOf drinks ≤ d.timestamp) ∧
    (∃ d ∈ drinks, d.timestamp = startTimeOf drinks) ∧
    (∀ i, i < (points drinks p).length →
      timeAt (points drinks p) i = startTimeOf drinks + i * 300000) ∧
    (∀ i, i + 1 < (points drinks p).length →
      timeAt (points drinks p) i < timeAt (points drinks p) (i + 1)) := by
  have hidx : ∀ i, i < (points drinks p).length →
      timeAt (points drinks p) i = startTimeOf drinks + i * 300000 := by
    intro i hi
    rw [timeAt, points_getD drinks p h i hi, sampleOf]
    rw [show (⟨(stateAt drinks p i).time, toBAC p (stateAt drinks p i).netSD,
      timeLabel (stateAt drinks p i).time⟩ : DataPoint).time = (stateAt drinks p i).time from rfl]
    rw [stateAt_time, stepMs_eq]
  have hlen0 : 0 < (points drinks p).length := by
    rw [points_of_ne_nil drinks p h]
    simp
  refine ⟨?_, startTimeOf_le drinks, startTimeOf_mem drinks h, hidx, ?_⟩
  · have := hidx 0 hlen0
    simpa using this
  · intro i hi
    have h1 := hidx i (by omega)
    have h2 := hidx (i + 1) hi
    rw [h1, h2]
    push_cast
    omega

/-- Witness for C7 at a concrete input. -/
theorem points_time_axis_witness :
    ([⟨0, 1⟩] : List Drink) ≠ [] ∧
    (timeAt (points [⟨0, 1⟩] ⟨2, 1, 80, .male⟩) 0 = startTimeOf [⟨0, 1⟩] ∧
     (∀ d ∈ ([⟨0, 1⟩] : List Drink), startTimeOf [⟨0, 1⟩] ≤ d.timestamp) ∧
     (∃ d ∈ ([⟨0, 1⟩] : List Drink), d.timestamp = startTimeOf [⟨0, 1⟩]) ∧
     (∀ i, i < (points [⟨0, 1⟩] ⟨2, 1, 80, .male⟩).length →
       timeAt (points [⟨0, 1⟩] ⟨2, 1, 80, .male⟩) i = startTimeOf [⟨0, 1⟩] + i * 300000) ∧
     (∀ i, i + 1 < (points [⟨0, 1⟩] ⟨2, 1, 80, .male⟩).length →
       timeAt (points [⟨0, 1⟩] ⟨2, 1, 80, .male⟩) i <
         timeAt (points [⟨0, 1⟩] ⟨2, 1, 80, .male⟩) (i + 1))) :=
  ⟨by simp, points_time_axis [⟨0, 1⟩] ⟨2, 1, 80, .male⟩ (by simp)⟩

/-! ### Non-negativity of the accumulator and of BAC; the weight clamp -/

theorem sdSum_nonneg {l : List Drink} (h : ∀ d ∈ l, 0 ≤ d.standardDrinks) :
    0 ≤ sdSum l := by
  rw [sdSum]
  apply List.sum_nonneg
  intro x hx
  rcases List.mem_map.mp hx with ⟨d, hd, rfl⟩
  exact h d hd

theorem mem_of_mem_intervalDrinks {d : Drink} {l : List Drink} {a b : ℤ}
    (h : d ∈ intervalDrinks l a b) : d ∈ l :=
  (List.mem_filter.mp h).1

theorem mem_of_mem_epsDrinks {d : Drink} {l : List Drink} {t0 : ℤ}
    (h : d ∈ epsDrinks l t0) : d ∈ l :=
  (List.mem_filter.mp h).1

theorem stepState_netSD_eq (s : List Drink) (p : Profile) (st : SimState) :
    (stepState s p st).netSD =
      (if st.netSD + sdSum (intervalDrinks s st.time (st.time + stepMs)) > 0 then
        (if st.netSD + sdSum (intervalDrinks s st.time (st.time + stepMs))
            - stepBurn p st.sinceStart < 0 then 0
         else st.netSD + sdSum (intervalDrinks s st.time (st.time + stepMs))
            - stepBurn p st.sinceStart)
       else st.netSD + sdSum (intervalDrinks s st.time (st.time + stepMs))) := rfl

theorem stepState_netSD_nonneg (s : List Drink) (p : Profile) (st : SimState)
    (h0 : 0 ≤ st.netSD) (hs : ∀ d ∈ s, 0 ≤ d.standardDrinks) :
    0 ≤ (stepState s p st).netSD := by
  have hadd : 0 ≤ sdSum (intervalDrinks s st.time (st.time + stepMs)) :=
    sdSum_nonneg (fun d hd => hs d (mem_of_mem_intervalDrinks hd))
  rw [stepState_netSD_eq]
  split
  · split
    · exact le_refl 0
    · linarith
  · linarith

theorem initNetSD_nonneg (drinks : List Drink)
    (h : ∀ d ∈ drinks, 0 ≤ d.standardDrinks) : 0 ≤ initNetSD drinks :=
  sdSum_nonneg (fun d hd =>
    h d (mem_sortDrinks.mp (mem_of_mem_epsDrinks hd)))

theorem stateAt_netSD_nonneg (drinks : List Drink) (p : Profile)
    (h : ∀ d ∈ drinks, 0 ≤ d.standardDrinks) (k : Nat) :
    0 ≤ (stateAt drinks p k).netSD := by
  induction k with
  | zero => exact initNetSD_nonneg drinks h
  | succ n ih =>
    exact stepState_netSD_nonneg _ p _ ih (fun d hd => h d (mem_sortDrinks.mp hd))

theorem rFactor_pos (g : Gender) : 0 < rFactor g := by
  cases g <;> norm_num [rFactor]

theorem toBAC_den_pos (p : Profile) :
    0 < (if p.weight > 0 then p.weight else 1) * rFactor p.gender := by
  apply mul_pos _ (rFactor_pos p.gender)
  split
  · assumption
  · norm_num

theorem toBAC_nonneg (p : Profile) {x : ℚ} (hx : 0 ≤ x) : 0 ≤ toBAC p x := by
  rw [toBAC]
  exact div_nonneg hx (le_of_lt (toBAC_den_pos p))

theorem calcStandardDrinks_nonneg {vol abv : ℚ} (hv : 0 ≤ vol) (ha : 0 ≤ abv) :
    0 ≤ calcStandardDrinks vol abv := by
  rw [calcStandardDrinks]
  positivity

theorem toBAC_weight01 (fh sh : ℚ) (g : Gender) (x : ℚ) :
    toBAC ⟨fh, sh, 0, g⟩ x = toBAC ⟨fh, sh, 1, g⟩ x := by
  norm_num [toBAC]

theorem stepState_weight01 (s : List Drink) (fh sh : ℚ) (g : Gender) (st : SimState) :
    stepState s ⟨fh, sh, 0, g⟩ st = stepState s ⟨fh, sh, 1, g⟩ st := rfl

theorem runLoop_weight01 (s : List Drink) (fh sh : ℚ) (g : Gender) (lastT : ℤ) :
    ∀ fuel st, runLoop s ⟨fh, sh, 0, g⟩ lastT fuel st =
      runLoop s ⟨fh, sh, 1, g⟩ lastT fuel st := by
  intro fuel
  induction fuel with
  | zero => intro st; rfl
  | succ n ih =>
    intro st
    rw [runLoop_succ, runLoop_succ, stepState_weight01, ih]
    rw [show ∀ st2, sampleOf ⟨fh, sh, 0, g⟩ st2 = sampleOf ⟨fh, sh, 1, g⟩ st2 from
      fun st2 => by rw [sampleOf, sampleOf, toBAC_weight01]]

/-- C8: with drinks whose `standardDrinks` comes from a positive volume
and a percent-alcohol in `[0, 100]` via the standard-drink conversion,
every emitted sample's BAC is non-negative for any profile (any weight,
zero or negative included); the BAC divisor is strictly positive (no
division by zero, hence every value is a well-defined finite rational);
and weight 0 produces output identical to weight 1. -/
theorem points_bac_safe (drinks : List Drink) (p : Profile)
    (hd : ∀ d ∈ drinks, ∃ vol abv : ℚ, 0 < vol ∧ 0 ≤ abv ∧ abv ≤ 100 ∧
      d.standardDrinks = calcStandardDrinks vol abv) :
    (∀ i, i < (points drinks p).length → 0 ≤ bacAt (points drinks p) i) ∧
    0 < (if p.weight > 0 then p.weight else 1) * rFactor p.gender ∧
    points drinks ⟨p.firstHourBurn, p.subsequentHourBurn, 0, p.gender⟩ =
      points drinks ⟨p.firstHourBurn, p.subsequentHourBurn, 1, p.gender⟩ := by
  have hnn : ∀ d ∈ drinks, 0 ≤ d.standardDrinks := by
    intro d hdm
    rcases hd d hdm with ⟨vol, abv, hv, ha, _, hsd⟩
    rw [hsd]
    exact calcStandardDrinks_nonneg (le_of_lt hv) ha
  refine ⟨?_, toBAC_den_pos p, ?_⟩
  · intro i hi
    by_cases h : drinks = []
    · subst h
      simp [points] at hi
    · rw [bacAt, points_getD drinks p h i hi]
      exact toBAC_nonneg p (stateAt_netSD_nonneg drinks p hnn i)
  · rw [points, points]
    split
    · rfl
    · rw [runLoop_weight01]
      rw [toBAC_weight01]

/-- Witness for C8 at a concrete input (the spec's 570 mL at 5% drink,
weight 0). -/
theorem points_bac_safe_witness :
    (∀ d ∈ ([⟨0, calcStandardDrinks 570 5⟩] : List Drink),
      ∃ vol abv : ℚ, 0 < vol ∧ 0 ≤ abv ∧ abv ≤ 100 ∧
        d.standardDrinks = calcStandardDrinks vol abv) ∧
    ((∀ i, i < (points [⟨0, calcStandardDrinks 570 5⟩] ⟨2, 1, 0, .male⟩).length →
        0 ≤ bacAt (points [⟨0, calcStandardDrinks 570 5⟩] ⟨2, 1, 0, .male⟩) i) ∧
     0 < (if (⟨2, 1, 0, .male⟩ : Profile).weight > 0 then
            (⟨2, 1, 0, .male⟩ : Profile).weight else 1) *
          rFactor (⟨2, 1, 0, .male⟩ : Profile).gender ∧
     points [⟨0, calcStandardDrinks 570 5⟩] ⟨2, 1, 0, .male⟩ =
       points [⟨0, calcStandardDrinks 570 5⟩] ⟨2, 1, 1, .male⟩) :=
  ⟨fun d hdm => ⟨570, 5, by norm_num, by norm_num, by norm_num, by
      rcases List.mem_singleton.mp hdm with rfl; rfl⟩,
   points_bac_safe [⟨0, calcStandardDrinks 570 5⟩] ⟨2, 1, 0, .male⟩
     (fun d hdm => ⟨570, 5, by norm_num, by norm_num, by norm_num, by
       rcases List.mem_singleton.mp hdm with rfl; rfl⟩)⟩

/-! ### Order independence: the simulator only reads its input through
permutation-invariant views -/

theorem sdSum_perm {l1 l2 : List Drink} (h : l1.Perm l2) : sdSum l1 = sdSum l2 := by
  rw [sdSum, sdSum]
  exact List.Perm.sum_eq (h.map Drink.standardDrinks)

theorem intervalDrinks_sdSum_congr {l1 l2 : List Drink} (h : l1.Perm l2) (a b : ℤ) :
    sdSum (intervalDrinks l1 a b) = sdSum (intervalDrinks l2 a b) :=
  sdSum_perm (h.filter _)

theorem epsDrinks_sdSum_congr {l1 l2 : List Drink} (h : l1.Perm l2) (t0 : ℤ) :
    sdSum (epsDrinks l1 t0) = sdSum (epsDrinks l2 t0) :=
  sdSum_perm (h.filter _)

theorem stepState_congr {s1 s2 : List Drink} (h : s1.Perm s2) (p : Profile)
    (st : SimState) : stepState s1 p st = stepState s2 p st := by
  simp only [stepState]
  rw [intervalDrinks_sdSum_congr h]

theorem runLoop_congr {s1 s2 : List Drink} (h : s1.Perm s2) (p : Profile) (lastT : ℤ) :
    ∀ fuel st, runLoop s1 p lastT fuel st = runLoop s2 p lastT fuel st := by
  intro fuel
  induction fuel with
  | zero => intro st; rfl
  | succ n ih =>
    intro st
    rw [runLoop_succ, runLoop_succ, stepState_congr h, ih]

theorem startTimeOf_perm {d1 d2 : List Drink} (h : d1.Perm d2) :
    startTimeOf d1 = startTimeOf d2 := by
  by_cases he : d1 = []
  · subst he
    rw [h.symm.eq_nil]
  · have he2 : d2 ≠ [] := fun hc => he (by rw [hc] at h; exact h.eq_nil)
    obtain ⟨a, ha, hae⟩ := startTimeOf_mem d1 he
    obtain ⟨b, hb, hbe⟩ := startTimeOf_mem d2 he2
    have h1 : startTimeOf d1 ≤ b.timestamp := startTimeOf_le d1 b (h.mem_iff.mpr hb)
    have h2 : startTimeOf d2 ≤ a.timestamp := startTimeOf_le d2 a (h.mem_iff.mp ha)
    rw [hbe] at h1
    rw [hae] at h2
    exact le_antisymm h1 h2

theorem lastDrinkTimeOf_perm {d1 d2 : List Drink} (h : d1.Perm d2) :
    lastDrinkTimeOf d1 = lastDrinkTimeOf d2 := by
  by_cases he : d1 = []
  · subst he
    rw [h.symm.eq_nil]
  · have he2 : d2 ≠ [] := fun hc => he (by rw [hc] at h; exact h.eq_nil)
    obtain ⟨a, ha, hae⟩ := lastDrinkTimeOf_mem d1 he
    obtain ⟨b, hb, hbe⟩ := lastDrinkTimeOf_mem d2 he2
    have h1 : b.timestamp ≤ lastDrinkTimeOf d1 := le_lastDrinkTimeOf d1 b (h.mem_iff.mpr hb)
    have h2 : a.timestamp ≤ lastDrinkTimeOf d2 := le_lastDrinkTimeOf d2 a (h.mem_iff.mp ha)
    rw [hbe] at h1
    rw [hae] at h2
    exact le_antisymm h2 h1

theorem sortDrinks_perm_of_perm {d1 d2 : List Drink} (h : d1.Perm d2) :
    (sortDrinks d1).Perm (sortDrinks d2) :=
  ((sortDrinks_perm d1).trans h).trans (sortDrinks_perm d2).symm

theorem initNetSD_perm {d1 d2 : List Drink} (h : d1.Perm d2) :
    initNetSD d1 = initNetSD d2 := by
  rw [initNetSD, initNetSD, startTimeOf_perm h,
    epsDrinks_sdSum_congr (sortDrinks_perm_of_perm h)]

theorem initState_perm {d1 d2 : List Drink} (h : d1.Perm d2) :
    initState d1 = initState d2 := by
  rw [initState, initState, initNetSD_perm h, startTimeOf_perm h]

/-- C5: permuting the input drink list yields an identical output sample
sequence (same times, same BAC values, same labels): sorting is internal
and every read of the input — earliest/latest timestamp and filtered
sums — is permutation-invariant. -/
theorem points_order_independent (d1 d2 : List Drink) (p : Profile) (hp : d1.Perm d2) :
    points d1 p = points d2 p := by
  by_cases he : d1 = []
  · subst he
    rw [hp.symm.eq_nil]
  · have he2 : d2 ≠ [] := fun hc => he (by rw [hc] at hp; exact hp.eq_nil)
    rw [points_of_ne_nil d1 p he, points_of_ne_nil d2 p he2, initState_perm hp,
      lastDrinkTimeOf_perm hp, runLoop_congr (sortDrinks_perm_of_perm hp)]

/-- Witness for C5 at a concrete pair of permuted inputs. -/
theorem points_order_independent_witness :
    (([⟨600000, 2⟩, ⟨0, 1⟩] : List Drink).Perm [⟨0, 1⟩, ⟨600000, 2⟩]) ∧
    points [⟨600000, 2⟩, ⟨0, 1⟩] ⟨2, 1, 80, .male⟩ =
      points [⟨0, 1⟩, ⟨600000, 2⟩] ⟨2, 1, 80, .male⟩ :=
  ⟨List.Perm.swap (⟨0, 1⟩ : Drink) (⟨600000, 2⟩ : Drink) [],
   points_order_independent [⟨600000, 2⟩, ⟨0, 1⟩] [⟨0, 1⟩, ⟨600000, 2⟩] ⟨2, 1, 80, .male⟩
     (List.Perm.swap (⟨0, 1⟩ : Drink) (⟨600000, 2⟩ : Drink) [])⟩

/-! ### Interval bookkeeping: splitting and tiling the half-open step
intervals -/

theorem sdSum_cons (d : Drink) (l : List Drink) :
    sdSum (d :: l) = d.standardDrinks + sdSum l := by
  simp [sdSum]

theorem sdSum_intervalDrinks_empty (l : List Drink) {a b : ℤ} (h : b ≤ a) :
    sdSum (intervalDrinks l a b) = 0 := by
  induction l with
  | nil => rfl
  | cons d tl ih =>
    have hc : ¬(a < d.timestamp ∧ d.timestamp ≤ b) := fun hx => by omega
    simp only [intervalDrinks, List.filter_cons] at ih ⊢
    simpa [hc] using ih

theorem sdSum_intervalDrinks_split (l : List Drink) {a b c : ℤ} (hab : a ≤ b) (hbc : b ≤ c) :
    sdSum (intervalDrinks l a c) =
      sdSum (intervalDrinks l a b) + sdSum (intervalDrinks l b c) := by
  induction l with
  | nil => simp [intervalDrinks, sdSum]
  | cons d tl ih =>
    simp only [intervalDrinks, List.filter_cons] at ih ⊢
    by_cases hac : a < d.timestamp ∧ d.timestamp ≤ c
    · by_cases hb : d.timestamp ≤ b
      · have h1 : a < d.timestamp ∧ d.timestamp ≤ b := ⟨hac.1, hb⟩
        have h2 : ¬(b < d.timestamp ∧ d.timestamp ≤ c) := fun hx => by omega
        simp only [decide_eq_true_eq]
        rw [if_pos hac, if_pos h1, if_neg h2, sdSum_cons, sdSum_cons, ih]
        ring
      · have h1 : ¬(a < d.timestamp ∧ d.timestamp ≤ b) := fun hx => by omega
        have h2 : b < d.timestamp ∧ d.timestamp ≤ c := ⟨by omega, hac.2⟩
        simp only [decide_eq_true_eq]
        rw [if_pos hac, if_neg h1, if_pos h2, sdSum_cons, sdSum_cons, ih]
        ring
    · have h1 : ¬(a < d.timestamp ∧ d.timestamp ≤ b) := fun hx => by omega
      have h2 : ¬(b < d.timestamp ∧ d.timestamp ≤ c) := fun hx => by omega
      simp only [decide_eq_true_eq]
      rw [if_neg hac, if_neg h1, if_neg h2, ih]

theorem sdSum_intervalDrinks_tile (l : List Drink) (t0 : ℤ) (n : ℕ) :
    sdSum (intervalDrinks l t0 (t0 + (n : ℤ) * stepMs)) =
      ∑ k ∈ Finset.range n,
        sdSum (intervalDrinks l (t0 + (k : ℤ) * stepMs) (t0 + ((k : ℤ) + 1) * stepMs)) := by
  induction n with
  | zero =>
    rw [show t0 + ((0 : ℕ) : ℤ) * stepMs = t0 by push_cast; ring]
    simp [sdSum_intervalDrinks_empty l (le_refl t0)]
  | succ m ih =>
    rw [Finset.sum_range_succ, ← ih]
    have hab : t0 ≤ t0 + (m : ℤ) * stepMs := by
      rw [stepMs_eq]
      omega
    have hbc : t0 + (m : ℤ) * stepMs ≤ t0 + ((m : ℤ) + 1) * stepMs := by
      rw [stepMs_eq]
      omega
    rw [← sdSum_intervalDrinks_split l hab hbc]
    congr 2

/-! ### Metabolism accounting over the first hour -/

theorem stepState_netSD_of_pos (s : List Drink) (p : Profile) (st : SimState)
    (h : 0 < (stepState s p st).netSD) :
    (stepState s p st).netSD =
      st.netSD + sdSum (intervalDrinks s st.time (st.time + stepMs))
        - stepBurn p st.sinceStart := by
  rw [stepState_netSD_eq] at h ⊢
  by_cases h1 : st.netSD + sdSum (intervalDrinks s st.time (st.time + stepMs)) > 0
  · rw [if_pos h1] at h ⊢
    by_cases h2 : st.netSD + sdSum (intervalDrinks s st.time (st.time + stepMs))
        - stepBurn p st.sinceStart < 0
    · rw [if_pos h2] at h
      exact absurd h (lt_irrefl 0)
    · rw [if_neg h2]
  · rw [if_neg h1] at h
    exact absurd h (not_lt.mpr (not_lt.mp h1))

theorem stateAt_netSD_firstHour (drinks : List Drink) (p : Profile) :
    ∀ n : ℕ, n ≤ 12 →
      (∀ k, 1 ≤ k → k ≤ n → 0 < (stateAt drinks p k).netSD) →
      (stateAt drinks p n).netSD = initNetSD drinks +
        sdSum (intervalDrinks (sortDrinks drinks) (startTimeOf drinks)
          (startTimeOf drinks + (n : ℤ) * stepMs)) - (n : ℚ) * (p.firstHourBurn / 60 * 5) := by
  intro n
  induction n with
  | zero =>
    intro _ _
    rw [show startTimeOf drinks + ((0 : ℕ) : ℤ) * stepMs = startTimeOf drinks by push_cast; ring,
      sdSum_intervalDrinks_empty (sortDrinks drinks) (le_refl (startTimeOf drinks))]
    push_cast
    rw [stateAt]
    rw [show (initState drinks).netSD = initNetSD drinks from rfl]
    ring
  | succ m ih =>
    intro hle hpos
    have hm12 : m ≤ 12 := by omega
    have hposm : ∀ k, 1 ≤ k → k ≤ m → 0 < (stateAt drinks p k).netSD :=
      fun k h1 h2 => hpos k h1 (by omega)
    have hstep : (stateAt drinks p (m + 1)).netSD =
        (stateAt drinks p m).netSD +
          sdSum (intervalDrinks (sortDrinks drinks) ((stateAt drinks p m).time)
            ((stateAt drinks p m).time + stepMs))
          - stepBurn p ((stateAt drinks p m).sinceStart) := by
      rw [stateAt]
      exact stepState_netSD_of_pos _ p _ (by
        rw [← stateAt]
        exact hpos (m + 1) (by omega) (le_refl _))
    have hburn : stepBurn p ((stateAt drinks p m).sinceStart) = p.firstHourBurn / 60 * 5 := by
      rw [stepBurn, stateAt_sinceStart, if_pos]
      rw [stepMs_eq]
      omega
    have htime := stateAt_time drinks p m
    rw [hstep, hburn, htime, ih hm12 hposm]
    have hab : startTimeOf drinks ≤ startTimeOf drinks + (m : ℤ) * stepMs := by
      rw [stepMs_eq]
      omega
    have hbc : startTimeOf drinks + (m : ℤ) * stepMs ≤
        startTimeOf drinks + (m : ℤ) * stepMs + stepMs := by
      rw [stepMs_eq]
      omega
    have hsplit := sdSum_intervalDrinks_split (sortDrinks drinks) hab hbc
    rw [show startTimeOf drinks + ((m + 1 : ℕ) : ℤ) * stepMs =
      startTimeOf drinks + (m : ℤ) * stepMs + stepMs by push_cast; ring, hsplit]
    push_cast
    ring

/-- C4: at each step whose pre-burn accumulator is positive, the amount
subtracted before the zero floor is the first-hour rate times 5/60 when
the elapsed simulated time (`timeSinceStart`) is under 60 minutes — which
happens exactly at the first 12 steps — and the subsequent rate times
5/60 otherwise; on a run whose accumulator stays strictly positive
through the first hour, exactly `firstHourBurn` net units are eliminated
over its 12 steps (final accumulator = initial + drinks added in
`(t0, t0+1h]` − `firstHourBurn`); and the accumulator is floored at zero
at every step (it never goes negative for non-negative drink inputs). -/
theorem firstHour_burn_accounting (drinks : List Drink) (p : Profile) :
    (∀ st : SimState,
      0 < st.netSD + sdSum (intervalDrinks (sortDrinks drinks) st.time (st.time + stepMs)) →
      (stepState (sortDrinks drinks) p st).netSD =
        max 0 (st.netSD + sdSum (intervalDrinks (sortDrinks drinks) st.time (st.time + stepMs))
          - stepBurn p st.sinceStart)) ∧
    (∀ k : ℕ, stepBurn p ((stateAt drinks p k).sinceStart) =
      if k < 12 then p.firstHourBurn * (5 / 60) else p.subsequentHourBurn * (5 / 60)) ∧
    ((∀ k, 1 ≤ k → k ≤ 12 → 0 < (stateAt drinks p k).netSD) →
      (stateAt drinks p 12).netSD = initNetSD drinks +
        sdSum (intervalDrinks (sortDrinks drinks) (startTimeOf drinks)
          (startTimeOf drinks + 12 * stepMs)) - p.firstHourBurn) ∧
    ((∀ d ∈ drinks, 0 ≤ d.standardDrinks) → ∀ k, 0 ≤ (stateAt drinks p k).netSD) := by
  refine ⟨?_, ?_, ?_, fun hnn k => stateAt_netSD_nonneg drinks p hnn k⟩
  · intro st hpos
    rw [stepState_netSD_eq, if_pos hpos]
    rcases lt_or_le (st.netSD + sdSum (intervalDrinks (sortDrinks drinks) st.time
        (st.time + stepMs)) - stepBurn p st.sinceStart) 0 with hlt | hle
    · rw [if_pos hlt, max_eq_left (le_of_lt hlt)]
    · rw [if_neg (not_lt.mpr hle), max_eq_right hle]
  · intro k
    rw [stepBurn, stateAt_sinceStart]
    by_cases hk : k < 12
    · rw [if_pos (by rw [stepMs_eq]; omega), if_pos hk]
      ring
    · rw [if_neg (by rw [stepMs_eq]; omega), if_neg hk]
      ring
  · intro hpos
    have := stateAt_netSD_firstHour drinks p 12 (le_refl 12) hpos
    rw [this]
    push_cast
    ring

/-- Witness for C4 at a concrete input. -/
theorem firstHour_burn_accounting_witness :
    (∀ st : SimState,
      0 < st.netSD + sdSum (intervalDrinks (sortDrinks [⟨0, 2⟩]) st.time (st.time + stepMs)) →
      (stepState (sortDrinks [⟨0, 2⟩]) ⟨2, 1, 80, .male⟩ st).netSD =
        max 0 (st.netSD + sdSum (intervalDrinks (sortDrinks [⟨0, 2⟩]) st.time (st.time + stepMs))
          - stepBurn ⟨2, 1, 80, .male⟩ st.sinceStart)) ∧
    (∀ k : ℕ, stepBurn ⟨2, 1, 80, .male⟩ ((stateAt [⟨0, 2⟩] ⟨2, 1, 80, .male⟩ k).sinceStart) =
      if k < 12 then (⟨2, 1, 80, .male⟩ : Profile).firstHourBurn * (5 / 60)
      else (⟨2, 1, 80, .male⟩ : Profile).subsequentHourBurn * (5 / 60)) ∧
    ((∀ k, 1 ≤ k → k ≤ 12 → 0 < (stateAt [⟨0, 2⟩] ⟨2, 1, 80, .male⟩ k).netSD) →
      (stateAt [⟨0, 2⟩] ⟨2, 1, 80, .male⟩ 12).netSD = initNetSD [⟨0, 2⟩] +
        sdSum (intervalDrinks (sortDrinks [⟨0, 2⟩]) (startTimeOf [⟨0, 2⟩])
          (startTimeOf [⟨0, 2⟩] + 12 * stepMs)) - (⟨2, 1, 80, .male⟩ : Profile).firstHourBurn) ∧
    ((∀ d ∈ ([⟨0, 2⟩] : List Drink), 0 ≤ d.standardDrinks) →
      ∀ k, 0 ≤ (stateAt [⟨0, 2⟩] ⟨2, 1, 80, .male⟩ k).netSD) :=
  firstHour_burn_accounting [⟨0, 2⟩] ⟨2, 1, 80, .male⟩

/-! ### Event accounting: the epsilon window double-counts sub-second
stragglers -/

theorem eps_plus_interval (l : List Drink) (t0 T : ℤ)
    (hl : ∀ d ∈ l, t0 ≤ d.timestamp ∧ d.timestamp ≤ T) :
    sdSum (epsDrinks l t0) + sdSum (intervalDrinks l t0 T) =
      sdSum l + sdSum (l.filter (fun d => t0 < d.timestamp ∧ d.timestamp < t0 + 1000)) := by
  induction l with
  | nil => simp [epsDrinks, intervalDrinks, sdSum]
  | cons d tl ih =>
    have hd := hl d (List.mem_cons_self d tl)
    have htl : ∀ x ∈ tl, t0 ≤ x.timestamp ∧ x.timestamp ≤ T :=
      fun x hx => hl x (List.mem_cons_of_mem d hx)
    have ihe := ih htl
    simp only [epsDrinks, intervalDrinks, List.filter_cons, decide_eq_true_eq] at ihe ⊢
    by_cases hlt : d.timestamp < t0 + 1000
    · have heps : |d.timestamp - t0| < 1000 := by
        rw [abs_of_nonneg (by omega)]
        omega
      by_cases ht0 : t0 < d.timestamp
      · have hint : t0 < d.timestamp ∧ d.timestamp ≤ T := ⟨ht0, hd.2⟩
        have hstr : t0 < d.timestamp ∧ d.timestamp < t0 + 1000 := ⟨ht0, hlt⟩
        rw [if_pos heps, if_pos hint, if_pos hstr]
        simp only [sdSum_cons]
        linarith [ihe]
      · have hint : ¬(t0 < d.timestamp ∧ d.timestamp ≤ T) := fun hx => ht0 hx.1
        have hstr : ¬(t0 < d.timestamp ∧ d.timestamp < t0 + 1000) := fun hx => ht0 hx.1
        rw [if_pos heps, if_neg hint, if_neg hstr]
        simp only [sdSum_cons]
        linarith [ihe]
    · have heps : ¬(|d.timestamp - t0| < 1000) := by
        rw [abs_of_nonneg (by omega)]
        omega
      have hint : t0 < d.timestamp ∧ d.timestamp ≤ T := ⟨by omega, hd.2⟩
      have hstr : ¬(t0 < d.timestamp ∧ d.timestamp < t0 + 1000) := fun hx => by omega
      rw [if_neg heps, if_pos hint, if_neg hstr]
      simp only [sdSum_cons]
      linarith [ihe]

set_option maxRecDepth 40000 in
/-- C1 counterexample: with drinks at `t = 0` and `t = 500` ms (each 1
standard drink) and zero burn rates, the drink at 500 ms is picked up
twice — once by the initial epsilon window and once again by the first
step's half-open interval — so the second sample's BAC equals the BAC of
3 accumulated units and strictly exceeds the BAC of the whole input (2
units), which an add-each-drink-exactly-once accumulation with no
elimination could never do. -/
theorem double_count_cex :
    (⟨500, 1⟩ : Drink) ∈ epsDrinks (sortDrinks [⟨0, 1⟩, ⟨500, 1⟩])
      (startTimeOf [⟨0, 1⟩, ⟨500, 1⟩]) ∧
    (⟨500, 1⟩ : Drink) ∈ intervalDrinks (sortDrinks [⟨0, 1⟩, ⟨500, 1⟩])
      (startTimeOf [⟨0, 1⟩, ⟨500, 1⟩]) (startTimeOf [⟨0, 1⟩, ⟨500, 1⟩] + stepMs) ∧
    sdSum [⟨0, 1⟩, ⟨500, 1⟩] = 2 ∧
    bacAt (points [⟨0, 1⟩, ⟨500, 1⟩] ⟨0, 0, 1, .male⟩) 1 = toBAC ⟨0, 0, 1, .male⟩ 3 ∧
    toBAC ⟨0, 0, 1, .male⟩ (sdSum [⟨0, 1⟩, ⟨500, 1⟩]) <
      bacAt (points [⟨0, 1⟩, ⟨500, 1⟩] ⟨0, 0, 1, .male⟩) 1 := by
  with_unfolding_all decide

/-- C1 as amended: summing the initial epsilon-window pickup and all 288
step-interval pickups accounts for every drink within the horizon exactly
once, plus one extra copy of every drink whose timestamp lies strictly
between `t0` and `t0 + 1` second (those are double-counted); in
particular no drink is dropped. -/
theorem once_per_interval_accounting (drinks : List Drink) (p : Profile)
    (hin : ∀ d ∈ drinks, d.timestamp ≤ startTimeOf drinks + (maxSteps : ℤ) * stepMs) :
    initNetSD drinks +
      ∑ k ∈ Finset.range maxSteps,
        sdSum (intervalDrinks (sortDrinks drinks) ((stateAt drinks p k).time)
          ((stateAt drinks p k).time + stepMs)) =
    sdSum drinks +
      sdSum (drinks.filter (fun d => startTimeOf drinks < d.timestamp ∧
        d.timestamp < startTimeOf drinks + 1000)) := by
  have hsum : ∀ k ∈ Finset.range maxSteps,
      sdSum (intervalDrinks (sortDrinks drinks) ((stateAt drinks p k).time)
        ((stateAt drinks p k).time + stepMs)) =
      sdSum (intervalDrinks (sortDrinks drinks) (startTimeOf drinks + (k : ℤ) * stepMs)
        (startTimeOf drinks + ((k : ℤ) + 1) * stepMs)) := by
    intro k _
    rw [stateAt_time, show startTimeOf drinks + (k : ℤ) * stepMs + stepMs =
      startTimeOf drinks + ((k : ℤ) + 1) * stepMs by ring]
  rw [Finset.sum_congr rfl hsum, ← sdSum_intervalDrinks_tile, initNetSD]
  have hb : ∀ d ∈ sortDrinks drinks, startTimeOf drinks ≤ d.timestamp ∧
      d.timestamp ≤ startTimeOf drinks + (maxSteps : ℤ) * stepMs :=
    fun d hd => ⟨startTimeOf_le drinks d (mem_sortDrinks.mp hd),
      hin d (mem_sortDrinks.mp hd)⟩
  rw [eps_plus_interval (sortDrinks drinks) (startTimeOf drinks) _ hb,
    sdSum_perm (sortDrinks_perm drinks), sdSum_perm ((sortDrinks_perm drinks).filter _)]

set_option maxRecDepth 40000 in
/-- Witness for the amended C1 at a concrete input. -/
theorem once_per_interval_accounting_witness :
    (∀ d ∈ ([⟨0, 1⟩, ⟨500, 1⟩] : List Drink),
      d.timestamp ≤ startTimeOf [⟨0, 1⟩, ⟨500, 1⟩] + (maxSteps : ℤ) * stepMs) ∧
    (initNetSD [⟨0, 1⟩, ⟨500, 1⟩] +
      ∑ k ∈ Finset.range maxSteps,
        sdSum (intervalDrinks (sortDrinks [⟨0, 1⟩, ⟨500, 1⟩])
          ((stateAt [⟨0, 1⟩, ⟨500, 1⟩] ⟨0, 0, 1, .male⟩ k).time)
          ((stateAt [⟨0, 1⟩, ⟨500, 1⟩] ⟨0, 0, 1, .male⟩ k).time + stepMs)) =
    sdSum [⟨0, 1⟩, ⟨500, 1⟩] +
      sdSum (List.filter (fun d => startTimeOf [⟨0, 1⟩, ⟨500, 1⟩] < d.timestamp ∧
        d.timestamp < startTimeOf [⟨0, 1⟩, ⟨500, 1⟩] + 1000) [⟨0, 1⟩, ⟨500, 1⟩])) :=
  ⟨by with_unfolding_all decide,
   once_per_interval_accounting [⟨0, 1⟩, ⟨500, 1⟩] ⟨0, 0, 1, .male⟩
     (by with_unfolding_all decide)⟩

/-! ### The early-stop (flatline) condition: it reads the pre-advance
clock, one step behind the just-emitted sample -/

theorem runLoop_no_continue (s : List Drink) (p : Profile) (lastT : ℤ) :
    ∀ fuel st i, i + 1 < (runLoop s p lastT fuel st).length →
      ¬(st.time + (i : ℤ) * stepMs > lastT ∧
        ((runLoop s p lastT fuel st).getD i default).bac ≤ 1/1000) := by
  intro fuel
  induction fuel with
  | zero => intro st i h; simp [runLoop] at h
  | succ n ih =>
    intro st i h
    rw [runLoop_succ] at h ⊢
    by_cases hc : st.time > lastT ∧ (sampleOf p (stepState s p st)).bac ≤ 1/1000
    · rw [if_pos hc] at h
      simp at h
    · rw [if_neg hc] at h ⊢
      cases i with
      | zero =>
        intro hcontra
        apply hc
        refine ⟨?_, by simpa using hcontra.2⟩
        have h1 := hcontra.1
        push_cast at h1
        linarith
      | succ j =>
        have h2 : j + 1 < (runLoop s p lastT n (stepState s p st)).length := by
          simpa using h
        intro hcontra
        apply ih (stepState s p st) j h2
        refine ⟨?_, by simpa using hcontra.2⟩
        have h1 := hcontra.1
        rw [stepState_time]
        push_cast at h1 ⊢
        linarith

theorem runLoop_early (s : List Drink) (p : Profile) (lastT : ℤ) :
    ∀ fuel st, (runLoop s p lastT fuel st).length < fuel →
      0 < (runLoop s p lastT fuel st).length ∧
      st.time + (((runLoop s p lastT fuel st).length - 1 : ℕ) : ℤ) * stepMs > lastT ∧
      ((runLoop s p lastT fuel st).getD ((runLoop s p lastT fuel st).length - 1) default).bac
        ≤ 1/1000 := by
  intro fuel
  induction fuel with
  | zero => intro st h; simp [runLoop] at h
  | succ n ih =>
    intro st h
    rw [runLoop_succ] at h ⊢
    by_cases hc : st.time > lastT ∧ (sampleOf p (stepState s p st)).bac ≤ 1/1000
    · rw [if_pos hc] at h ⊢
      refine ⟨by simp, ?_, by simpa using hc.2⟩
      simpa using hc.1
    · rw [if_neg hc] at h ⊢
      have hlen : (runLoop s p lastT n (stepState s p st)).length < n := by
        simpa using h
      obtain ⟨hpos, htime, hbac⟩ := ih (stepState s p st) hlen
      set rest := runLoop s p lastT n (stepState s p st) with hrest
      refine ⟨by simp, ?_, ?_⟩
      · have hlen1 : (sampleOf p (stepState s p st) :: rest).length - 1 = rest.length := by
          simp
        rw [hlen1]
        rw [stepState_time] at htime
        have hcast : ((rest.length : ℕ) : ℤ) = ((rest.length - 1 : ℕ) : ℤ) + 1 := by
          omega
        rw [hcast]
        linarith
      · have hlen1 : (sampleOf p (stepState s p st) :: rest).length - 1 = rest.length := by
          simp
        rw [hlen1]
        have hidx : rest.length = (rest.length - 1) + 1 := by omega
        rw [hidx, List.getD_cons_succ]
        exact hbac

/-- C3 counterexample: two zero-unit drinks at `t = 0` and `t = 1` ms.
The sample at index 1 (time `t0 + 300000`) already lies past the last
drink's timestamp and its BAC is 0 ≤ 0.001, so under the claim's reading
("the current clock" = the time of the just-emitted sample) the loop
would stop there and the output would have 2 samples; the code's stop
check instead compares the pre-advance clock (still `t0`, not past the
last drink at `t = 1`), runs one more iteration, and emits 3 samples. -/
theorem flatline_stop_cex :
    lastDrinkTimeOf [⟨0, 0⟩, ⟨1, 0⟩] <
      timeAt (points [⟨0, 0⟩, ⟨1, 0⟩] ⟨2, 1, 80, .male⟩) 1 ∧
    bacAt (points [⟨0, 0⟩, ⟨1, 0⟩] ⟨2, 1, 80, .male⟩) 1 ≤ 1/1000 ∧
    (points [⟨0, 0⟩, ⟨1, 0⟩] ⟨2, 1, 80, .male⟩).length = 3 := by
  with_unfolding_all decide

/-- C3 as amended: the loop stops, right after emitting a sample, as soon
as the pre-advance clock — the time of the sample emitted one step
earlier — is past the last drink's timestamp and the just-computed BAC is
at most 0.001: whenever two further samples follow sample `i-1`, that stop
condition did not hold at step `i`, and whenever the sequence ends before
the 289-sample ceiling its last two samples witness the stop condition. -/
theorem flatline_stop_amended (drinks : List Drink) (p : Profile) (h : drinks ≠ []) :
    (∀ i, 1 ≤ i → i + 1 < (points drinks p).length →
      ¬(lastDrinkTimeOf drinks < timeAt (points drinks p) (i - 1) ∧
        bacAt (points drinks p) i ≤ 1/1000)) ∧
    ((points drinks p).length < 289 →
      lastDrinkTimeOf drinks < timeAt (points drinks p) ((points drinks p).length - 2) ∧
      bacAt (points drinks p) ((points drinks p).length - 1) ≤ 1/1000) := by
  have htime : ∀ i, i < (points drinks p).length →
      timeAt (points drinks p) i = startTimeOf drinks + (i : ℤ) * stepMs := by
    intro i hi
    rw [timeAt, points_getD drinks p h i hi, sampleOf]
    rw [show (⟨(stateAt drinks p i).time, toBAC p (stateAt drinks p i).netSD,
      timeLabel (stateAt drinks p i).time⟩ : DataPoint).time = (stateAt drinks p i).time from rfl]
    rw [stateAt_time]
  have hpts := points_of_ne_nil drinks p h
  constructor
  · intro i h1 h2 hcontra
    have hout : (i - 1) + 1 <
        (runLoop (sortDrinks drinks) p (lastDrinkTimeOf drinks) maxSteps
          (initState drinks)).length := by
      rw [hpts] at h2
      simp only [List.length_cons] at h2
      omega
    apply runLoop_no_continue (sortDrinks drinks) p (lastDrinkTimeOf drinks) maxSteps
      (initState drinks) (i - 1) hout
    constructor
    · have ht := htime (i - 1) (by omega)
      rw [show (initState drinks).time = startTimeOf drinks from rfl]
      rw [ht] at hcontra
      exact hcontra.1
    · have hb := hcontra.2
      rw [bacAt, hpts] at hb
      rw [show i = (i - 1) + 1 by omega, List.getD_cons_succ] at hb
      exact hb
  · intro hlen
    set out := runLoop (sortDrinks drinks) p (lastDrinkTimeOf drinks) maxSteps
      (initState drinks) with hout_def
    have hlen2 : (points drinks p).length = out.length + 1 := by
      rw [hpts]
      simp
    have hout : out.length < maxSteps := by
      have h288 : maxSteps = 288 := rfl
      omega
    obtain ⟨hpos, ht, hb⟩ := runLoop_early (sortDrinks drinks) p (lastDrinkTimeOf drinks)
      maxSteps (initState drinks) hout
    have hpos2 : 0 < out.length := hpos
    have ht2 : (initState drinks).time + ((out.length - 1 : ℕ) : ℤ) * stepMs >
        lastDrinkTimeOf drinks := ht
    have hb2 : (out.getD (out.length - 1) default).bac ≤ 1/1000 := hb
    constructor
    · have htt := htime ((points drinks p).length - 2) (by omega)
      rw [htt, hlen2]
      rw [show (initState drinks).time = startTimeOf drinks from rfl] at ht2
      rw [show ((out.length + 1 - 2 : ℕ) : ℤ) = ((out.length - 1 : ℕ) : ℤ) by omega]
      exact ht2
    · rw [bacAt, hpts]
      simp only [List.length_cons]
      rw [show out.length + 1 - 1 = (out.length - 1) + 1 by omega, List.getD_cons_succ]
      exact hb2

/-- Witness for the amended C3 at a concrete input. -/
theorem flatline_stop_amended_witness :
    ([⟨0, 0⟩, ⟨1, 0⟩] : List Drink) ≠ [] ∧
    ((∀ i, 1 ≤ i → i + 1 < (points [⟨0, 0⟩, ⟨1, 0⟩] ⟨2, 1, 80, .male⟩).length →
      ¬(lastDrinkTimeOf [⟨0, 0⟩, ⟨1, 0⟩] <
          timeAt (points [⟨0, 0⟩, ⟨1, 0⟩] ⟨2, 1, 80, .male⟩) (i - 1) ∧
        bacAt (points [⟨0, 0⟩, ⟨1, 0⟩] ⟨2, 1, 80, .male⟩) i ≤ 1/1000)) ∧
     ((points [⟨0, 0⟩, ⟨1, 0⟩] ⟨2, 1, 80, .male⟩).length < 289 →
      lastDrinkTimeOf [⟨0, 0⟩, ⟨1, 0⟩] <
        timeAt (points [⟨0, 0⟩, ⟨1, 0⟩] ⟨2, 1, 80, .male⟩)
          ((points [⟨0, 0⟩, ⟨1, 0⟩] ⟨2, 1, 80, .male⟩).length - 2) ∧
      bacAt (points [⟨0, 0⟩, ⟨1, 0⟩] ⟨2, 1, 80, .male⟩)
        ((points [⟨0, 0⟩, ⟨1, 0⟩] ⟨2, 1, 80, .male⟩).length - 1) ≤ 1/1000)) :=
  ⟨by simp, flatline_stop_amended [⟨0, 0⟩, ⟨1, 0⟩] ⟨2, 1, 80, .male⟩ (by simp)⟩

/-! ### The summary pass: peak detection and the 0.05 crossing scan -/

theorem peakFrom_inv (pts : List DataPoint) :
    ∀ fuel i best, pts.length ≤ i + fuel → best < pts.length → best < i →
      (∀ j, j < i → bacAt pts j ≤ bacAt pts best) →
      (∀ j, j < best → bacAt pts j < bacAt pts best) →
      peakFrom pts fuel i best < pts.length ∧
      (∀ j, j < pts.length → bacAt pts j ≤ bacAt pts (peakFrom pts fuel i best)) ∧
      (∀ j, j < peakFrom pts fuel i best → bacAt pts j < bacAt pts (peakFrom pts fuel i best)) := by
  intro fuel
  induction fuel with
  | zero =>
    intro i best hfi hbl hbi hle hlt
    rw [peakFrom]
    exact ⟨hbl, fun j hj => hle j (by omega), hlt⟩
  | succ n ih =>
    intro i best hfi hbl hbi hle hlt
    rw [peakFrom]
    by_cases hi : i < pts.length
    · rw [if_pos hi]
      by_cases hgt : bacAt pts i > bacAt pts best
      · rw [if_pos hgt]
        apply ih (i + 1) i (by omega) hi (by omega)
        · intro j hj
          rcases Nat.lt_succ_iff_lt_or_eq.mp hj with hj2 | hj2
          · exact le_of_lt (lt_of_le_of_lt (hle j hj2) hgt)
          · subst hj2
            exact le_refl _
        · intro j hj
          exact lt_of_le_of_lt (hle j hj) hgt
      · rw [if_neg hgt]
        apply ih (i + 1) best (by omega) hbl (by omega)
        · intro j hj
          rcases Nat.lt_succ_iff_lt_or_eq.mp hj with hj2 | hj2
          · exact hle j hj2
          · subst hj2
            exact not_lt.mp hgt
        · exact hlt
    · rw [if_neg hi]
      exact ⟨hbl, fun j hj => hle j (by omega), hlt⟩

theorem peakIndexOf_spec (pts : List DataPoint) (h : pts ≠ []) :
    peakIndexOf pts < pts.length ∧
    (∀ j, j < pts.length → bacAt pts j ≤ bacAt pts (peakIndexOf pts)) ∧
    (∀ j, j < peakIndexOf pts → bacAt pts j < bacAt pts (peakIndexOf pts)) := by
  have hlen : 0 < pts.length := List.length_pos.mpr h
  have hle : ∀ j, j < 1 → bacAt pts j ≤ bacAt pts 0 := by
    intro j hj
    rw [show j = 0 by omega]
  have hlt : ∀ j, j < 0 → bacAt pts j < bacAt pts 0 := fun j hj => absurd hj (by omega)
  exact peakFrom_inv pts pts.length 1 0 (by omega) hlen (by omega) hle hlt

theorem crossFrom_some (pts : List DataPoint) :
    ∀ fuel i c, crossFrom pts fuel i = some c →
      i ≤ c ∧ c < pts.length ∧ bacAt pts c ≤ 5/100 ∧
      (∀ j, i ≤ j → j < c → 5/100 < bacAt pts j) := by
  intro fuel
  induction fuel with
  | zero => intro i c hc; simp [crossFrom] at hc
  | succ n ih =>
    intro i c hc
    rw [crossFrom] at hc
    by_cases hi : i < pts.length
    · rw [if_pos hi] at hc
      by_cases hb : bacAt pts i ≤ 5/100
      · rw [if_pos hb] at hc
        rcases Option.some_injective _ hc with rfl
        exact ⟨le_refl _, hi, hb, fun j h1 h2 => absurd h1 (by omega)⟩
      · rw [if_neg hb] at hc
        obtain ⟨h1, h2, h3, h4⟩ := ih (i + 1) c hc
        refine ⟨by omega, h2, h3, ?_⟩
        intro j hj1 hj2
        rcases Nat.eq_or_lt_of_le hj1 with rfl | hj3
        · exact not_le.mp hb
        · exact h4 j (by omega) hj2
    · rw [if_neg hi] at hc
      cases hc

theorem crossFrom_none (pts : List DataPoint) :
    ∀ fuel i, pts.length ≤ i + fuel → crossFrom pts fuel i = none →
      ∀ j, i ≤ j → j < pts.length → 5/100 < bacAt pts j := by
  intro fuel
  induction fuel with
  | zero =>
    intro i hfi _ j h1 h2
    omega
  | succ n ih =>
    intro i hfi hc
    rw [crossFrom] at hc
    by_cases hi : i < pts.length
    · rw [if_pos hi] at hc
      by_cases hb : bacAt pts i ≤ 5/100
      · rw [if_pos hb] at hc
        cases hc
      · rw [if_neg hb] at hc
        intro j h1 h2
        rcases Nat.eq_or_lt_of_le h1 with rfl | h3
        · exact not_le.mp hb
        · exact ih (i + 1) (by omega) hc j (by omega) h2
    · intro j h1 h2
      omega

/-- C2: on every non-empty sample sequence, `peakIndexOf` is the first
index achieving the strict maximum BAC (everything earlier is strictly
below it, nothing exceeds it); when the peak BAC is below 0.05 the
summary is UNDER_THRESHOLD carrying only the peak; when it is at least
0.05 the summary is OVER_THRESHOLD reporting the time and label of the
first sample at or after the peak index with BAC ≤ 0.05 with
`isProjected = false`, and when no such sample exists it reports the last
sample's time and label with `isProjected = true`. -/
theorem soberTimeInfo_spec (pts : List DataPoint) (h : pts ≠ []) :
    peakIndexOf pts < pts.length ∧
    (∀ j, j < pts.length → bacAt pts j ≤ bacAt pts (peakIndexOf pts)) ∧
    (∀ j, j < peakIndexOf pts → bacAt pts j < bacAt pts (peakIndexOf pts)) ∧
    (bacAt pts (peakIndexOf pts) < 5/100 →
      soberTimeInfo pts = some (SoberInfo.under (bacAt pts (peakIndexOf pts)))) ∧
    (5/100 ≤ bacAt pts (peakIndexOf pts) →
      (∃ c, peakIndexOf pts ≤ c ∧ c < pts.length ∧ bacAt pts c ≤ 5/100 ∧
        (∀ j, peakIndexOf pts ≤ j → j < c → 5/100 < bacAt pts j) ∧
        soberTimeInfo pts = some (SoberInfo.over (bacAt pts (peakIndexOf pts))
          (timeAt pts c) (labelAt pts c) false)) ∨
      ((∀ j, peakIndexOf pts ≤ j → j < pts.length → 5/100 < bacAt pts j) ∧
        soberTimeInfo pts = some (SoberInfo.over (bacAt pts (peakIndexOf pts))
          (timeAt pts (pts.length - 1)) (labelAt pts (pts.length - 1)) true))) := by
  obtain ⟨hpk, hmax, hstrict⟩ := peakIndexOf_spec pts h
  have hne : ¬(pts.isEmpty = true) := by
    simpa [List.isEmpty_iff] using h
  refine ⟨hpk, hmax, hstrict, ?_, ?_⟩
  · intro hlt
    rw [soberTimeInfo, if_neg hne, if_pos hlt]
  · intro hge
    rw [soberTimeInfo, if_neg hne, if_neg (not_lt.mpr hge)]
    cases hc : crossFrom pts pts.length (peakIndexOf pts) with
    | some c =>
      left
      obtain ⟨h1, h2, h3, h4⟩ := crossFrom_some pts pts.length (peakIndexOf pts) c hc
      exact ⟨c, h1, h2, h3, h4, rfl⟩
    | none =>
      right
      exact ⟨crossFrom_none pts pts.length (peakIndexOf pts) (by omega) hc, rfl⟩

/-- Witness for C2 at a concrete sample sequence. -/
theorem soberTimeInfo_spec_witness :
    ([⟨0, 6/100, 0⟩, ⟨1, 4/100, 1⟩] : List DataPoint) ≠ [] ∧
    (peakIndexOf [⟨0, 6/100, 0⟩, ⟨1, 4/100, 1⟩] <
        ([⟨0, 6/100, 0⟩, ⟨1, 4/100, 1⟩] : List DataPoint).length ∧
     (∀ j, j < ([⟨0, 6/100, 0⟩, ⟨1, 4/100, 1⟩] : List DataPoint).length →
       bacAt [⟨0, 6/100, 0⟩, ⟨1, 4/100, 1⟩] j ≤
         bacAt [⟨0, 6/100, 0⟩, ⟨1, 4/100, 1⟩] (peakIndexOf [⟨0, 6/100, 0⟩, ⟨1, 4/100, 1⟩])) ∧
     (∀ j, j < peakIndexOf [⟨0, 6/100, 0⟩, ⟨1, 4/100, 1⟩] →
       bacAt [⟨0, 6/100, 0⟩, ⟨1, 4/100, 1⟩] j <
         bacAt [⟨0, 6/100, 0⟩, ⟨1, 4/100, 1⟩] (peakIndexOf [⟨0, 6/100, 0⟩, ⟨1, 4/100, 1⟩])) ∧
     (bacAt [⟨0, 6/100, 0⟩, ⟨1, 4/100, 1⟩] (peakIndexOf [⟨0, 6/100, 0⟩, ⟨1, 4/100, 1⟩]) < 5/100 →
       soberTimeInfo [⟨0, 6/100, 0⟩, ⟨1, 4/100, 1⟩] =
         some (SoberInfo.under (bacAt [⟨0, 6/100, 0⟩, ⟨1, 4/100, 1⟩]
           (peakIndexOf [⟨0, 6/100, 0⟩, ⟨1, 4/100, 1⟩])))) ∧
     (5/100 ≤ bacAt [⟨0, 6/100, 0⟩, ⟨1, 4/100, 1⟩] (peakIndexOf [⟨0, 6/100, 0⟩, ⟨1, 4/100, 1⟩]) →
       (∃ c, peakIndexOf [⟨0, 6/100, 0⟩, ⟨1, 4/100, 1⟩] ≤ c ∧
         c < ([⟨0, 6/100, 0⟩, ⟨1, 4/100, 1⟩] : List DataPoint).length ∧
         bacAt [⟨0, 6/100, 0⟩, ⟨1, 4/100, 1⟩] c ≤ 5/100 ∧
         (∀ j, peakIndexOf [⟨0, 6/100, 0⟩, ⟨1, 4/100, 1⟩] ≤ j → j < c →
           5/100 < bacAt [⟨0, 6/100, 0⟩, ⟨1, 4/100, 1⟩] j) ∧
         soberTimeInfo [⟨0, 6/100, 0⟩, ⟨1, 4/100, 1⟩] =
           some (SoberInfo.over (bacAt [⟨0, 6/100, 0⟩, ⟨1, 4/100, 1⟩]
               (peakIndexOf [⟨0, 6/100, 0⟩, ⟨1, 4/100, 1⟩]))
             (timeAt [⟨0, 6/100, 0⟩, ⟨1, 4/100, 1⟩] c)
             (labelAt [⟨0, 6/100, 0⟩, ⟨1, 4/100, 1⟩] c) false)) ∨
       ((∀ j, peakIndexOf [⟨0, 6/100, 0⟩, ⟨1, 4/100, 1⟩] ≤ j →
           j < ([⟨0, 6/100, 0⟩, ⟨1, 4/100, 1⟩] : List DataPoint).length →
           5/100 < bacAt [⟨0, 6/100, 0⟩, ⟨1, 4/100, 1⟩] j) ∧
         soberTimeInfo [⟨0, 6/100, 0⟩, ⟨1, 4/100, 1⟩] =
           some (SoberInfo.over (bacAt [⟨0, 6/100, 0⟩, ⟨1, 4/100, 1⟩]
               (peakIndexOf [⟨0, 6/100, 0⟩, ⟨1, 4/100, 1⟩]))
             (timeAt [⟨0, 6/100, 0⟩, ⟨1, 4/100, 1⟩]
               (([⟨0, 6/100, 0⟩, ⟨1, 4/100, 1⟩] : List DataPoint).length - 1))
             (labelAt [⟨0, 6/100, 0⟩, ⟨1, 4/100, 1⟩]
               (([⟨0, 6/100, 0⟩, ⟨1, 4/100, 1⟩] : List DataPoint).length - 1)) true)))) :=
  ⟨by simp, soberTimeInfo_spec [⟨0, 6/100, 0⟩, ⟨1, 4/100, 1⟩] (by simp)⟩

/-! ### Drinks beyond the 24-hour horizon are invisible to the run -/

theorem sdSum_append (l1 l2 : List Drink) : sdSum (l1 ++ l2) = sdSum l1 + sdSum l2 := by
  simp [sdSum]

theorem runLoop_full (s : List Drink) (p : Profile) (lastT : ℤ) :
    ∀ fuel st, (∀ k : ℕ, k < fuel → st.time + (k : ℤ) * stepMs ≤ lastT) →
      (runLoop s p lastT fuel st).length = fuel := by
  intro fuel
  induction fuel with
  | zero => intro st _; rfl
  | succ n ih =>
    intro st hk
    rw [runLoop_succ]
    have h0 : st.time ≤ lastT := by
      have := hk 0 (by omega)
      push_cast at this
      linarith
    rw [if_neg (fun hx => absurd hx.1 (not_lt.mpr h0))]
    rw [List.length_cons, ih (stepState s p st)]
    intro k hkn
    rw [stepState_time]
    have := hk (k + 1) (by omega)
    push_cast at this ⊢
    linarith

theorem runLoop_congr_of_sums (s1 s2 : List Drink) (p : Profile) (lastT bound : ℤ)
    (hsum : ∀ a b : ℤ, b ≤ bound →
      sdSum (intervalDrinks s1 a b) = sdSum (intervalDrinks s2 a b)) :
    ∀ (fuel : ℕ) (st : SimState), st.time + (fuel : ℤ) * stepMs ≤ bound →
      runLoop s1 p lastT fuel st = runLoop s2 p lastT fuel st := by
  intro fuel
  induction fuel with
  | zero => intro st _; rfl
  | succ n ih =>
    intro st hb
    have hb1 : st.time + stepMs ≤ bound := by
      push_cast at hb
      rw [stepMs_eq] at hb ⊢
      omega
    have hstep : stepState s1 p st = stepState s2 p st := by
      simp only [stepState]
      rw [hsum st.time (st.time + stepMs) hb1]
    rw [runLoop_succ, runLoop_succ, hstep, ih (stepState s2 p st)]
    rw [stepState_time]
    push_cast at hb ⊢
    rw [stepMs_eq] at hb ⊢
    omega

theorem startTimeOf_append_sd (l : List Drink) (d : Drink) (q : ℚ) :
    startTimeOf (l ++ [⟨d.timestamp, q⟩]) = startTimeOf (l ++ [d]) := by
  have hne1 : l ++ [d] ≠ [] := by simp
  have hne2 : l ++ [⟨d.timestamp, q⟩] ≠ [] := by simp
  apply le_antisymm
  · obtain ⟨y, hy, hye⟩ := startTimeOf_mem (l ++ [d]) hne1
    rw [← hye]
    rcases List.mem_append.mp hy with hyl | hyd
    · exact startTimeOf_le _ y (List.mem_append.mpr (Or.inl hyl))
    · rcases List.mem_singleton.mp hyd with rfl
      exact startTimeOf_le _ ⟨y.timestamp, q⟩ (List.mem_append.mpr (Or.inr (by simp)))
  · obtain ⟨y, hy, hye⟩ := startTimeOf_mem (l ++ [⟨d.timestamp, q⟩]) hne2
    rw [← hye]
    rcases List.mem_append.mp hy with hyl | hyd
    · exact startTimeOf_le _ y (List.mem_append.mpr (Or.inl hyl))
    · rcases List.mem_singleton.mp hyd with rfl
      exact startTimeOf_le _ d (List.mem_append.mpr (Or.inr (by simp)))

theorem lastDrinkTimeOf_append_sd (l : List Drink) (d : Drink) (q : ℚ) :
    lastDrinkTimeOf (l ++ [⟨d.timestamp, q⟩]) = lastDrinkTimeOf (l ++ [d]) := by
  have hne1 : l ++ [d] ≠ [] := by simp
  have hne2 : l ++ [⟨d.timestamp, q⟩] ≠ [] := by simp
  apply le_antisymm
  · obtain ⟨y, hy, hye⟩ := lastDrinkTimeOf_mem (l ++ [⟨d.timestamp, q⟩]) hne2
    rw [← hye]
    rcases List.mem_append.mp hy with hyl | hyd
    · exact le_lastDrinkTimeOf _ y (List.mem_append.mpr (Or.inl hyl))
    · rcases List.mem_singleton.mp hyd with rfl
      exact le_lastDrinkTimeOf _ d (List.mem_append.mpr (Or.inr (by simp)))
  · obtain ⟨y, hy, hye⟩ := lastDrinkTimeOf_mem (l ++ [d]) hne1
    rw [← hye]
    rcases List.mem_append.mp hy with hyl | hyd
    · exact le_lastDrinkTimeOf _ y (List.mem_append.mpr (Or.inl hyl))
    · rcases List.mem_singleton.mp hyd with rfl
      exact le_lastDrinkTimeOf _ ⟨y.timestamp, q⟩ (List.mem_append.mpr (Or.inr (by simp)))

/-- C10: a drink strictly more than 24 simulated hours after the earliest
drink is invisible to the run: every emitted sample's time stays strictly
below the last drink's timestamp, so the flatline early stop never fires
and the output has the full 289 samples; and replacing that drink's
standard-drink amount by any value leaves the entire output unchanged —
its units are never added, since no step interval ever reaches its
timestamp before the 288-step ceiling. -/
theorem far_drink_ignored (l : List Drink) (d : Drink) (p : Profile)
    (hfar : startTimeOf (l ++ [d]) + 86400000 < d.timestamp) :
    (points (l ++ [d]) p).length = 289 ∧
    (∀ i, i < (points (l ++ [d]) p).length →
      timeAt (points (l ++ [d]) p) i < lastDrinkTimeOf (l ++ [d])) ∧
    (∀ q : ℚ, points (l ++ [⟨d.timestamp, q⟩]) p = points (l ++ [d]) p) := by
  have hne1 : l ++ [d] ≠ [] := by simp
  have hlast : d.timestamp ≤ lastDrinkTimeOf (l ++ [d]) :=
    le_lastDrinkTimeOf _ d (List.mem_append.mpr (Or.inr (by simp)))
  have hlen : (points (l ++ [d]) p).length = 289 := by
    rw [points_of_ne_nil _ p hne1, List.length_cons]
    rw [runLoop_full (sortDrinks (l ++ [d])) p (lastDrinkTimeOf (l ++ [d])) maxSteps
      (initState (l ++ [d]))]
    · rfl
    · intro k hk
      rw [show (initState (l ++ [d])).time = startTimeOf (l ++ [d]) from rfl]
      rw [maxSteps_eq] at hk
      rw [stepMs_eq]
      omega
  refine ⟨hlen, ?_, ?_⟩
  · intro i hi
    rw [timeAt, points_getD _ p hne1 i hi, sampleOf]
    rw [show (⟨(stateAt (l ++ [d]) p i).time, toBAC p (stateAt (l ++ [d]) p i).netSD,
      timeLabel (stateAt (l ++ [d]) p i).time⟩ : DataPoint).time =
      (stateAt (l ++ [d]) p i).time from rfl]
    rw [stateAt_time, stepMs_eq]
    rw [hlen] at hi
    omega
  · intro q
    have hne2 : l ++ [⟨d.timestamp, q⟩] ≠ [] := by simp
    have hstart := startTimeOf_append_sd l d q
    have hlastq := lastDrinkTimeOf_append_sd l d q
    have hsum : ∀ a b : ℤ, b ≤ startTimeOf (l ++ [d]) + 86400000 →
        sdSum (intervalDrinks (sortDrinks (l ++ [⟨d.timestamp, q⟩])) a b) =
        sdSum (intervalDrinks (sortDrinks (l ++ [d])) a b) := by
      intro a b hbound
      rw [intervalDrinks_sdSum_congr (sortDrinks_perm (l ++ [(⟨d.timestamp, q⟩ : Drink)])) a b,
        intervalDrinks_sdSum_congr (sortDrinks_perm (l ++ [d])) a b]
      rw [intervalDrinks, intervalDrinks, List.filter_append, List.filter_append,
        sdSum_append, sdSum_append]
      have hP : ¬(a < d.timestamp ∧ d.timestamp ≤ b) := by
        intro hx
        have h1 := hx.1
        have h2 := hx.2
        omega
      have hd1 : List.filter (fun x => decide (a < x.timestamp ∧ x.timestamp ≤ b))
          [(⟨d.timestamp, q⟩ : Drink)] = [] := by
        simp only [List.filter]
        rw [decide_eq_false hP]
      have hd2 : List.filter (fun x => decide (a < x.timestamp ∧ x.timestamp ≤ b)) [d] = [] := by
        simp only [List.filter]
        rw [decide_eq_false hP]
      rw [hd1, hd2]
    have heps : initNetSD (l ++ [⟨d.timestamp, q⟩]) = initNetSD (l ++ [d]) := by
      rw [initNetSD, initNetSD, hstart,
        epsDrinks_sdSum_congr (sortDrinks_perm (l ++ [(⟨d.timestamp, q⟩ : Drink)]))
          (startTimeOf (l ++ [d])),
        epsDrinks_sdSum_congr (sortDrinks_perm (l ++ [d])) (startTimeOf (l ++ [d]))]
      rw [epsDrinks, epsDrinks, List.filter_append, List.filter_append,
        sdSum_append, sdSum_append]
      have hP : ¬(|d.timestamp - startTimeOf (l ++ [d])| < 1000) := by
        intro hx
        rw [abs_of_nonneg (by omega)] at hx
        omega
      have hd1 : List.filter (fun x => decide (|x.timestamp - startTimeOf (l ++ [d])| < 1000))
          [(⟨d.timestamp, q⟩ : Drink)] = [] := by
        simp only [List.filter]
        rw [decide_eq_false hP]
      have hd2 : List.filter (fun x => decide (|x.timestamp - startTimeOf (l ++ [d])| < 1000))
          [d] = [] := by
        simp only [List.filter]
        rw [decide_eq_false hP]
      rw [hd1, hd2]
    have hinit : initState (l ++ [⟨d.timestamp, q⟩]) = initState (l ++ [d]) := by
      rw [initState, initState, heps, hstart]
    rw [points_of_ne_nil _ p hne2, points_of_ne_nil _ p hne1, hinit, hlastq]
    rw [runLoop_congr_of_sums (sortDrinks (l ++ [(⟨d.timestamp, q⟩ : Drink)]))
      (sortDrinks (l ++ [d])) p (lastDrinkTimeOf (l ++ [d]))
      (startTimeOf (l ++ [d]) + 86400000) hsum maxSteps (initState (l ++ [d]))]
    rw [show (initState (l ++ [d])).time = startTimeOf (l ++ [d]) from rfl]
    rw [maxSteps_eq, stepMs_eq]
    omega

/-- Witness for C10 at a concrete input. -/
theorem far_drink_ignored_witness :
    (startTimeOf ([⟨0, 1⟩] ++ [⟨86400001, 5⟩]) + 86400000 <
      (⟨86400001, 5⟩ : Drink).timestamp) ∧
    ((points ([⟨0, 1⟩] ++ [⟨86400001, 5⟩]) ⟨2, 1, 80, .male⟩).length = 289 ∧
     (∀ i, i < (points ([⟨0, 1⟩] ++ [⟨86400001, 5⟩]) ⟨2, 1, 80, .male⟩).length →
       timeAt (points ([⟨0, 1⟩] ++ [⟨86400001, 5⟩]) ⟨2, 1, 80, .male⟩) i <
         lastDrinkTimeOf ([⟨0, 1⟩] ++ [⟨86400001, 5⟩])) ∧
     (∀ q : ℚ, points ([⟨0, 1⟩] ++ [⟨(⟨86400001, 5⟩ : Drink).timestamp, q⟩]) ⟨2, 1, 80, .male⟩ =
       points ([⟨0, 1⟩] ++ [⟨86400001, 5⟩]) ⟨2, 1, 80, .male⟩)) :=
  ⟨by with_unfolding_all decide,
   far_drink_ignored [⟨0, 1⟩] ⟨86400001, 5⟩ ⟨2, 1, 80, .male⟩ (by with_unfolding_all decide)⟩

